import Mathlib

/-!
Verification of the bounded-concurrency request dispatcher (`RequestQueue`).

Shallow embedding of the `RequestQueue` class of `src/frontend/app.js`
(lines 2122-2151):

```js
class RequestQueue {
    constructor(concurrency = 3) {
        this.concurrency = concurrency;
        this.running = 0;
        this.queue = [];
    }

    add(fn) {
        return new Promise((resolve, reject) => {
            this.queue.push({ fn, resolve, reject });
            this.processNext();
        });
    }

    async processNext() {
        if (this.running >= this.concurrency || this.queue.length === 0) return;

        this.running++;
        const { fn, resolve, reject } = this.queue.shift();

        try {
            const result = await fn();
            resolve(result);
        } catch (err) {
            reject(err);
        } finally {
            this.running--;
            this.processNext();
        }
    }
}
```

The JavaScript execution model is single-threaded and cooperative: mutation
of `running` and `queue` happens only inside the synchronous sections of
`add` and of `processNext` (the part of `processNext` up to `await fn()`,
and the continuation after `fn`'s promise settles).  We therefore embed the
class as a state machine whose atomic events are exactly those synchronous
sections:

* `Event.add b` — a caller invokes `add(fn)`: the item is pushed, a fresh
  promise handle is created, and `processNext()` runs its synchronous part;
* `Event.settle i o` — the promise returned by a dispatched item `i`'s
  `fn()` settles with outcome `o`: the continuation of `await fn()` runs
  (`resolve`/`reject`, the `finally` block, and the chained `processNext`).

Work functions are opaque to the dispatcher.  The only distinction the
dispatcher's control flow can observe is *when* `fn` settles; in particular
a function that throws **synchronously** when invoked never reaches the
`await` suspension point, so its `catch`/`finally` blocks — including the
recursive `processNext()` — run inside the dispatching synchronous section
itself.  A work item's behaviour is therefore either `async` (returns a
promise; the settlement arrives later as a separate `settle` event with an
arbitrary outcome) or `throws e` (throws `e` synchronously on invocation).
Result and error values are opaque to the dispatcher; we take `Val := Nat`
as an arbitrary countable value universe.

Ghost observation fields (`nextId`, `submitted`, `started`, `active`,
`settled`, `handles`, `beh`) record the history the spec's claims speak
about (submission order, dispatch start order, the set of currently
executing items, and the settlement of each returned promise); they do not
influence the control flow, which reads only `concurrency`, `running`,
`queue` and the behaviour of the dispatched item, exactly as the source.
-/

/-- Values produced (or thrown) by work items, opaque to the dispatcher. -/
abbrev Val := Nat

/-- How a dispatched work item's execution ends: `fn()`'s promise fulfills
with a value, or rejects with (or `fn` throws) an error. -/
inductive Outcome where
  | ok  (v : Val)
  | err (e : Val)
  deriving DecidableEq, Repr

/-- The dispatcher-observable behaviour of a submitted work function:
either it returns a promise (which settles later), or it throws
synchronously when invoked. -/
inductive FnBehavior where
  | async
  | throws (e : Val)
  deriving DecidableEq, Repr

/-- State of the promise handle returned by `add` for one work item:
still pending, resolved by `resolve(result)`, or rejected by `reject(err)`. -/
inductive HandleState where
  | pending
  | resolved (v : Val)
  | rejected (e : Val)
  deriving DecidableEq, Repr

/-- The handle state a settlement outcome produces. -/
def Outcome.toHandle : Outcome → HandleState
  | .ok v  => .resolved v
  | .err e => .rejected e

/-- The state of a `RequestQueue` instance, between synchronous sections.

`concurrency`, `running`, `queue` are the three fields of the class
(work-item records are identified by the id assigned at submission).
`concurrency` is an `Int` because the constructor performs no validation:
any number, including zero or a negative one, is stored as given.
The remaining fields are ghost observations of the execution history. -/
structure QState where
  /-- `this.concurrency`: the configured ceiling, stored unvalidated. -/
  concurrency : Int
  /-- `this.running`: count of dispatched, not yet settled items. -/
  running : Nat
  /-- `this.queue`: ids of the pending `{fn, resolve, reject}` records, FIFO. -/
  queue : List Nat
  /-- Ghost: next fresh item id (ids are assigned in submission order). -/
  nextId : Nat
  /-- Ghost: all submitted item ids, in submission order. -/
  submitted : List Nat
  /-- Ghost: all dispatched item ids, in dispatch start order. -/
  started : List Nat
  /-- Ghost: ids of items currently executing (dispatched, unsettled). -/
  active : List Nat
  /-- Ghost: ids of items that have settled, in settlement order. -/
  settled : List Nat
  /-- Ghost: the promise handle returned by `add`, per item id. -/
  handles : Nat → HandleState
  /-- Ghost: the behaviour of each submitted work function. -/
  beh : Nat → FnBehavior

/-- Constructor `new RequestQueue(concurrency)` — it stores the argument
unchanged and initializes `running = 0`, `queue = []`.
(The source declares a default argument `concurrency = 3`.) -/
def RequestQueue.new (concurrency : Int := 3) : QState :=
  { concurrency := concurrency
    running := 0
    queue := []
    nextId := 0
    submitted := []
    started := []
    active := []
    settled := []
    handles := fun _ => .pending
    beh := fun _ => .async }

/-- Dispatch of item `i` from the head of the queue (`rest` is the tail):
the lines `this.running++;` and
`const { fn, resolve, reject } = this.queue.shift();` — increment the
running count, remove the head, and (ghost) record the dispatch start. -/
def dispatch (s : QState) (i : Nat) (rest : List Nat) : QState :=
  { s with
    running := s.running + 1
    queue := rest
    started := s.started ++ [i]
    active := s.active ++ [i] }

/-- The settlement handler for dispatched item `i` — the body of
`try/catch/finally` once `fn()`'s outcome `o` is known, except for the
trailing `this.processNext()` call (kept separate so the synchronous
cascade for synchronously-throwing items can reuse it):
`resolve(result)` / `reject(err)` settles exactly item `i`'s handle with
`o`, and the `finally` block decrements `this.running--`.
Ghost-wise `i` moves from `active` to `settled`. -/
def settleCore (s : QState) (i : Nat) (o : Outcome) : QState :=
  { s with
    handles := fun j => if j = i then o.toHandle else s.handles j
    running := s.running - 1
    active := s.active.erase i
    settled := s.settled ++ [i] }

/-- The synchronous part of `async processNext()` (up to `await fn()`), with
explicit fuel.  If `this.running >= this.concurrency` or the queue is empty,
return; otherwise dispatch the head item `i` and invoke its `fn()`.  If `fn`
is asynchronous, the synchronous section ends there (the continuation runs
later, as a `settle` event).  If `fn` throws synchronously, the exception is
raised before the `await` suspension, so `catch`, `finally` and the chained
`this.processNext()` all run here, synchronously.

Each recursive call happens on a strictly shorter queue (the dispatched head
is removed and `settleCore` leaves the queue untouched), so a fuel of
`s.queue.length` always suffices; the fuel only makes that bound structural. -/
def processNextF : Nat → QState → QState
  | 0, s => s
  | fuel + 1, s =>
    if s.concurrency ≤ (s.running : Int) ∨ s.queue.isEmpty then s
    else
      match s.queue with
      | [] => s
      | i :: rest =>
        match s.beh i with
        | .async => dispatch s i rest
        | .throws e => processNextF fuel (settleCore (dispatch s i rest) i (.err e))

/-- Call `this.processNext()`: run the synchronous section; a fuel of
`s.queue.length` is always sufficient since every recursion step removes
one queue element. -/
def processNext (s : QState) : QState :=
  processNextF s.queue.length s

/-- The enqueue part of `add(fn)`: create the pending promise handle for a
fresh id and execute `this.queue.push({ fn, resolve, reject });` — the
(ghost) behaviour of the submitted function is recorded under the new id.
The new item's handle is `pending` already in the initial state, so only
the ghost submission bookkeeping and the real `queue` change. -/
def enqueue (s : QState) (b : FnBehavior) : QState :=
  { s with
    nextId := s.nextId + 1
    submitted := s.submitted ++ [s.nextId]
    queue := s.queue ++ [s.nextId]
    beh := fun j => if j = s.nextId then b else s.beh j }

/-- The two kinds of atomic synchronous sections that mutate the state. -/
inductive Event where
  | add (b : FnBehavior)
  | settle (i : Nat) (o : Outcome)
  deriving DecidableEq, Repr

/-- One atomic synchronous section.

`add b`: `add(fn)` creates a pending promise, pushes `{fn, resolve, reject}`
onto the queue and calls `this.processNext()`.

`settle i o`: the promise of a dispatched asynchronous item `i` settles with
outcome `o`, resuming `processNext` at `await fn()`; this is only possible
when `i` is actually executing and its `fn` was asynchronous (a synchronous
throw settles within the dispatching section instead), otherwise the event
is invalid (`none`). -/
def step (s : QState) : Event → Option QState
  | .add b => some (processNext (enqueue s b))
  | .settle i o =>
    if i ∈ s.active ∧ s.beh i = .async then
      some (processNext (settleCore s i o))
    else
      none

/-- Run a sequence of events from a state; `none` if any event is invalid. -/
def run (s : QState) : List Event → Option QState
  | [] => some s
  | e :: es =>
    match step s e with
    | some s' => run s' es
    | none => none

/-- The states a queue constructed with ceiling `K` can reach. -/
def Reachable (K : Int) (s : QState) : Prop :=
  ∃ es, run (RequestQueue.new K) es = some s

/-- Structural invariant of the dispatcher state, preserved by every event
(the `busy` field is the implicit work-conserving invariant: whenever work
is waiting in the queue, the running count has reached the ceiling, because
every slot release immediately triggers a dispatch attempt). -/
structure QueueInv (s : QState) : Prop where
  /-- The running count never exceeds the ceiling (nor drops below 0). -/
  run_le : (s.running : Int) ≤ max s.concurrency 0
  /-- Running counts exactly the currently executing items. -/
  run_active : s.running = s.active.length
  /-- Dispatch starts are a prefix of submissions; the queue holds exactly
  the submitted-but-not-yet-started items, in submission order. -/
  order : s.started ++ s.queue = s.submitted
  /-- Ids are assigned consecutively in submission order. -/
  subm : s.submitted = List.range s.nextId
  /-- Every started item is either still executing or settled. -/
  part : ∀ j ∈ s.started, j ∈ s.active ∨ j ∈ s.settled
  /-- Only started items execute. -/
  act_st : ∀ j ∈ s.active, j ∈ s.started
  /-- Only started items have settled. -/
  set_st : ∀ j ∈ s.settled, j ∈ s.started
  /-- No item executes twice simultaneously. -/
  act_nd : s.active.Nodup
  /-- Work-conserving: a non-empty queue means the ceiling is saturated. -/
  busy : s.queue ≠ [] → s.concurrency ≤ (s.running : Int)

/-- The invariant fields that do not mention `busy`: what `processNext`
itself preserves unconditionally. -/
structure PreInv (s : QState) : Prop where
  run_le : (s.running : Int) ≤ max s.concurrency 0
  run_active : s.running = s.active.length
  order : s.started ++ s.queue = s.submitted
  subm : s.submitted = List.range s.nextId
  part : ∀ j ∈ s.started, j ∈ s.active ∨ j ∈ s.settled
  act_st : ∀ j ∈ s.active, j ∈ s.started
  set_st : ∀ j ∈ s.settled, j ∈ s.started
  act_nd : s.active.Nodup

/-- Slack: at most one dispatch is pending — when two or more items wait,
the running count is already within one of the ceiling.  This is the state
of affairs at every call site of `processNext` (which dispatches at most
one item per invocation). -/
def Slack (s : QState) : Prop :=
  2 ≤ s.queue.length → s.concurrency ≤ (s.running : Int) + 1

/-- Two states agree on every component except possibly the promise
handles.  Used to compare the dispatcher's bookkeeping after a failed
settlement with its bookkeeping after a successful one. -/
def AgreeExceptHandles (s t : QState) : Prop :=
  s.concurrency = t.concurrency ∧ s.running = t.running ∧ s.queue = t.queue ∧
  s.nextId = t.nextId ∧ s.submitted = t.submitted ∧ s.started = t.started ∧
  s.active = t.active ∧ s.settled = t.settled ∧ s.beh = t.beh

/-- Strict sequentiality: every started item other than the most recently
started one has already settled.  This is the behaviour of a dispatcher
whose ceiling is 1. -/
def SeqInv (s : QState) : Prop :=
  ∀ j ∈ s.started.dropLast, j ∈ s.settled

/-- The number of settlement events in an event sequence. -/
def settleCount (es : List Event) : Nat :=
  (es.filter fun e =>
    match e with
    | .settle _ _ => true
    | .add _ => false).length

/-- Example run: three submissions to a queue with ceiling 2 (the third
waits in the queue while items 0 and 1 execute). -/
def exTrace1 : List Event := [.add .async, .add .async, .add .async]

/-- The state reached by `exTrace1` from `new RequestQueue(2)`. -/
def exState1 : QState :=
  (run (RequestQueue.new 2) exTrace1).getD (RequestQueue.new 2)

/-- Example run: two submissions to a queue with ceiling 1 (item 0
executes, item 1 waits). -/
def exTrace2 : List Event := [.add .async, .add .async]

/-- The state reached by `exTrace2` from `new RequestQueue(1)`. -/
def exState2 : QState :=
  (run (RequestQueue.new 1) exTrace2).getD (RequestQueue.new 1)

/-- The state after item 0 of `exState2` resolves with value 7. -/
def exState3s : QState :=
  (step exState2 (.settle 0 (.ok 7))).getD exState2

/-- The state after item 0 of `exState1` rejects with error 3. -/
def exState4a : QState :=
  (step exState1 (.settle 0 (.err 3))).getD exState1

/-- The state after item 0 of `exState1` resolves with value 4. -/
def exState4b : QState :=
  (step exState1 (.settle 0 (.ok 4))).getD exState1

/-- Example run: two submissions to a queue constructed with ceiling 0. -/
def exTrace5 : List Event := [.add .async, .add (.throws 1)]

/-- The state reached by `exTrace5` from `new RequestQueue(0)`. -/
def exState5 : QState :=
  (run (RequestQueue.new 0) exTrace5).getD (RequestQueue.new 0)

/-- The state after a single submission to an idle queue with ceiling 3. -/
def exState6 : QState :=
  (step (RequestQueue.new 3) (.add .async)).getD (RequestQueue.new 3)

/-- Continuation of `exState2`: the active item settles once. -/
def exTrace7 : List Event := [.settle 0 (.ok 1)]

/-- The state reached by `exTrace7` from `exState2`. -/
def exState7 : QState := (run exState2 exTrace7).getD exState2

/-- Example run with ceiling 1: two submissions, then item 0 settles
(dispatching item 1). -/
def exTrace8 : List Event := [.add .async, .add .async, .settle 0 (.ok 2)]

/-- The state reached by `exTrace8` from `new RequestQueue(1)`. -/
def exState8 : QState :=
  (run (RequestQueue.new 1) exTrace8).getD (RequestQueue.new 1)

/-- The state after submitting a synchronously-throwing item (error 9)
to an idle queue with ceiling 2. -/
def exStateA : QState :=
  (step (RequestQueue.new 2) (.add (.throws 9))).getD (RequestQueue.new 2)

/-- The state after submitting an asynchronous item to an idle queue with
ceiling 2. -/
def exStateB : QState :=
  (step (RequestQueue.new 2) (.add .async)).getD (RequestQueue.new 2)

/-- The state after the item of `exStateB` rejects asynchronously with
error 9. -/
def exStateC : QState :=
  (step exStateB (.settle 0 (.err 9))).getD exStateB

theorem QueueInv.toPreInv {s : QState} (h : QueueInv s) : PreInv s :=
  ⟨h.run_le, h.run_active, h.order, h.subm, h.part, h.act_st, h.set_st, h.act_nd⟩

theorem PreInv.submitted_nodup {s : QState} (h : PreInv s) : s.submitted.Nodup := by
  rw [h.subm]; exact List.nodup_range s.nextId

theorem PreInv.started_queue_nodup {s : QState} (h : PreInv s) :
    (s.started ++ s.queue).Nodup := by
  rw [h.order]; exact h.submitted_nodup

theorem PreInv.queue_disj {s : QState} (h : PreInv s) :
    ∀ j ∈ s.queue, j ∉ s.started := by
  intro j hj hj'
  exact (List.nodup_append.mp h.started_queue_nodup).2.2 hj' hj

theorem PreInv.started_nodup {s : QState} (h : PreInv s) : s.started.Nodup :=
  (List.nodup_append.mp h.started_queue_nodup).1

theorem dispatch_preInv {s : QState} {i : Nat} {rest : List Nat}
    (h : PreInv s) (hq : s.queue = i :: rest)
    (hrun : (s.running : Int) < s.concurrency) :
    PreInv (dispatch s i rest) := by
  have hiq : i ∈ s.queue := by rw [hq]; exact List.mem_cons_self i rest
  have hist : i ∉ s.started := h.queue_disj i hiq
  have hiact : i ∉ s.active := fun hc => hist (h.act_st i hc)
  refine ⟨?_, ?_, ?_, ?_, ?_, ?_, ?_, ?_⟩
  · show ((s.running + 1 : Nat) : Int) ≤ max s.concurrency 0
    have hm : s.concurrency ≤ max s.concurrency 0 := le_max_left _ _
    push_cast
    omega
  · show s.running + 1 = (s.active ++ [i]).length
    rw [List.length_append, h.run_active, List.length_singleton]
  · show (s.started ++ [i]) ++ rest = s.submitted
    rw [List.append_assoc, List.singleton_append, ← hq, h.order]
  · exact h.subm
  · intro j hj
    rcases List.mem_append.mp hj with hj' | hj'
    · rcases h.part j hj' with ha | hs'
      · exact Or.inl (List.mem_append_left _ ha)
      · exact Or.inr hs'
    · exact Or.inl (List.mem_append_right _ hj')
  · intro j hj
    rcases List.mem_append.mp hj with hj' | hj'
    · exact List.mem_append_left _ (h.act_st j hj')
    · exact List.mem_append_right _ hj'
  · intro j hj
    exact List.mem_append_left _ (h.set_st j hj)
  · show (s.active ++ [i]).Nodup
    rw [List.nodup_append]
    refine ⟨h.act_nd, List.nodup_singleton i, ?_⟩
    intro a ha hai
    rw [List.mem_singleton] at hai
    subst hai
    exact hiact ha

theorem settleCore_preInv {s : QState} {i : Nat} {o : Outcome}
    (h : PreInv s) (hi : i ∈ s.active) : PreInv (settleCore s i o) := by
  refine ⟨?_, ?_, ?_, ?_, ?_, ?_, ?_, ?_⟩
  · show ((s.running - 1 : Nat) : Int) ≤ max s.concurrency 0
    have h1 : ((s.running - 1 : Nat) : Int) ≤ (s.running : Int) := by
      exact_mod_cast Nat.sub_le s.running 1
    exact le_trans h1 h.run_le
  · show s.running - 1 = (s.active.erase i).length
    rw [List.length_erase_of_mem hi, h.run_active]
  · exact h.order
  · exact h.subm
  · intro j hj
    rcases h.part j hj with ha | hs'
    · by_cases hji : j = i
      · subst hji
        exact Or.inr (List.mem_append_right _ (List.mem_singleton_self j))
      · exact Or.inl ((List.mem_erase_of_ne hji).mpr ha)
    · exact Or.inr (List.mem_append_left _ hs')
  · intro j hj
    exact h.act_st j (List.mem_of_mem_erase hj)
  · intro j hj
    rcases List.mem_append.mp hj with hj' | hj'
    · exact h.set_st j hj'
    · rw [List.mem_singleton] at hj'
      subst hj'
      exact h.act_st j hi
  · exact h.act_nd.erase i

theorem processNextF_const (fuel : Nat) : ∀ s : QState,
    (processNextF fuel s).concurrency = s.concurrency ∧
    (processNextF fuel s).nextId = s.nextId ∧
    (processNextF fuel s).submitted = s.submitted ∧
    (processNextF fuel s).beh = s.beh := by
  induction fuel with
  | zero => intro s; exact ⟨rfl, rfl, rfl, rfl⟩
  | succ fuel ih =>
    intro s
    rw [processNextF]
    split
    · exact ⟨rfl, rfl, rfl, rfl⟩
    · split
      · exact ⟨rfl, rfl, rfl, rfl⟩
      · split
        · exact ⟨rfl, rfl, rfl, rfl⟩
        · exact ih _

theorem processNextF_spec (fuel : Nat) : ∀ s : QState,
    s.queue.length ≤ fuel → PreInv s → Slack s →
    PreInv (processNextF fuel s) ∧
      ((processNextF fuel s).queue ≠ [] →
        (processNextF fuel s).concurrency ≤ ((processNextF fuel s).running : Int)) := by
  induction fuel with
  | zero =>
    intro s hf hp _
    have hq : s.queue = [] := List.length_eq_zero.mp (Nat.le_zero.mp hf)
    rw [processNextF]
    exact ⟨hp, fun h => absurd hq h⟩
  | succ fuel ih =>
    intro s hf hp hsl
    rw [processNextF]
    by_cases hg : s.concurrency ≤ (s.running : Int) ∨ s.queue.isEmpty
    · rw [if_pos hg]
      refine ⟨hp, fun hne => ?_⟩
      rcases hg with hg | hg
      · exact hg
      · exact absurd (List.isEmpty_iff.mp hg) hne
    · rw [if_neg hg]
      push_neg at hg
      obtain ⟨hrun, hne⟩ := hg
      cases hq : s.queue with
      | nil =>
        rw [hq] at hne
        simp at hne
      | cons i rest =>
        dsimp only
        have hlen : rest.length + 1 ≤ fuel + 1 := by
          have := hf; rw [hq] at this; simpa using this
        cases hb : s.beh i with
        | async =>
          dsimp only
          refine ⟨dispatch_preInv hp hq hrun, fun hne2 => ?_⟩
          show s.concurrency ≤ ((s.running + 1 : Nat) : Int)
          have hrl : 1 ≤ rest.length := by
            have : rest ≠ [] := hne2
            cases rest with
            | nil => exact absurd rfl this
            | cons a l => simp
          have h2 : 2 ≤ s.queue.length := by rw [hq]; simpa using hrl
          have := hsl h2
          push_cast
          omega
        | throws e =>
          dsimp only
          have hpi : PreInv (dispatch s i rest) := dispatch_preInv hp hq hrun
          have hiact : i ∈ (dispatch s i rest).active := by
            show i ∈ s.active ++ [i]
            exact List.mem_append_right _ (List.mem_singleton_self i)
          refine ih _ ?_ (settleCore_preInv hpi hiact) ?_
          · show rest.length ≤ fuel
            omega
          · intro h2
            show s.concurrency ≤ ((s.running + 1 - 1 : Nat) : Int) + 1
            have h2' : (2 : Nat) ≤ rest.length := h2
            have h3 : 2 ≤ s.queue.length := by rw [hq]; simp; omega
            have := hsl h3
            push_cast
            omega

theorem processNext_queueInv {s : QState} (hp : PreInv s) (hsl : Slack s) :
    QueueInv (processNext s) := by
  obtain ⟨h1, h2⟩ := processNextF_spec s.queue.length s le_rfl hp hsl
  exact ⟨h1.run_le, h1.run_active, h1.order, h1.subm, h1.part, h1.act_st,
    h1.set_st, h1.act_nd, h2⟩

theorem enqueue_preInv {s : QState} {b : FnBehavior} (h : QueueInv s) :
    PreInv (enqueue s b) := by
  refine ⟨h.run_le, h.run_active, ?_, ?_, h.part, h.act_st, h.set_st, h.act_nd⟩
  · show s.started ++ (s.queue ++ [s.nextId]) = s.submitted ++ [s.nextId]
    rw [← List.append_assoc, h.order]
  · show s.submitted ++ [s.nextId] = List.range (s.nextId + 1)
    rw [h.subm, List.range_succ]

theorem enqueue_slack {s : QState} {b : FnBehavior} (h : QueueInv s) :
    Slack (enqueue s b) := by
  intro h2
  have hne : s.queue ≠ [] := by
    intro hq
    rw [show (enqueue s b).queue = s.queue ++ [s.nextId] from rfl, hq] at h2
    simp at h2
  have := h.busy hne
  show s.concurrency ≤ (s.running : Int) + 1
  omega

theorem settleCore_slack {s : QState} {i : Nat} {o : Outcome}
    (h : QueueInv s) (hi : i ∈ s.active) : Slack (settleCore s i o) := by
  intro h2
  have hne : s.queue ≠ [] := by
    intro hq
    rw [show (settleCore s i o).queue = s.queue from rfl, hq] at h2
    simp at h2
  have hb := h.busy hne
  have hr : 1 ≤ s.running := by
    rw [h.run_active]
    exact List.length_pos.mpr (List.ne_nil_of_mem hi)
  show s.concurrency ≤ ((s.running - 1 : Nat) : Int) + 1
  omega

theorem step_queueInv {s s' : QState} {e : Event}
    (h : QueueInv s) (hs : step s e = some s') : QueueInv s' := by
  cases e with
  | add b =>
    have hs' : s' = processNext (enqueue s b) := by
      simpa [step] using hs.symm
    rw [hs']
    exact processNext_queueInv (enqueue_preInv h) (enqueue_slack h)
  | settle i o =>
    simp only [step] at hs
    split at hs
    case isTrue hg =>
      have hs' : s' = processNext (settleCore s i o) := by
        simpa using hs.symm
      rw [hs']
      exact processNext_queueInv (settleCore_preInv h.toPreInv hg.1)
        (settleCore_slack h hg.1)
    case isFalse hg => exact absurd hs (by simp)

theorem run_queueInv : ∀ (es : List Event) (s s' : QState),
    QueueInv s → run s es = some s' → QueueInv s' := by
  intro es
  induction es with
  | nil =>
    intro s s' h hr
    have : s = s' := by simpa [run] using hr
    rw [← this]; exact h
  | cons e es ih =>
    intro s s' h hr
    rw [run] at hr
    cases hstep : step s e with
    | none => rw [hstep] at hr; exact absurd hr (by simp)
    | some s₁ =>
      rw [hstep] at hr
      exact ih s₁ s' (step_queueInv h hstep) hr

theorem new_queueInv (K : Int) : QueueInv (RequestQueue.new K) := by
  refine ⟨?_, rfl, rfl, rfl, ?_, ?_, ?_, ?_, ?_⟩
  · show ((0 : Nat) : Int) ≤ max K 0
    simp
  · intro j hj; exact absurd hj (List.not_mem_nil j)
  · intro j hj; exact absurd hj (List.not_mem_nil j)
  · intro j hj; exact absurd hj (List.not_mem_nil j)
  · exact List.nodup_nil
  · intro hne; exact absurd rfl hne

theorem reachable_queueInv {K : Int} {s : QState} (h : Reachable K s) :
    QueueInv s := by
  obtain ⟨es, hes⟩ := h
  exact run_queueInv es _ _ (new_queueInv K) hes

theorem step_concurrency {s s' : QState} {e : Event}
    (hs : step s e = some s') : s'.concurrency = s.concurrency := by
  cases e with
  | add b =>
    have hs' : s' = processNext (enqueue s b) := by simpa [step] using hs.symm
    rw [hs']
    exact (processNextF_const _ _).1
  | settle i o =>
    simp only [step] at hs
    split at hs
    case isTrue hg =>
      have hs' : s' = processNext (settleCore s i o) := by simpa using hs.symm
      rw [hs']
      exact (processNextF_const _ _).1
    case isFalse hg => exact absurd hs (by simp)

theorem run_concurrency : ∀ (es : List Event) (s s' : QState),
    run s es = some s' → s'.concurrency = s.concurrency := by
  intro es
  induction es with
  | nil =>
    intro s s' hr
    have : s = s' := by simpa [run] using hr
    rw [← this]
  | cons e es ih =>
    intro s s' hr
    rw [run] at hr
    cases hstep : step s e with
    | none => rw [hstep] at hr; exact absurd hr (by simp)
    | some s₁ =>
      rw [hstep] at hr
      rw [ih s₁ s' hr, step_concurrency hstep]

theorem reachable_concurrency {K : Int} {s : QState} (h : Reachable K s) :
    s.concurrency = K := by
  obtain ⟨es, hes⟩ := h
  exact run_concurrency es _ _ hes

theorem processNextF_stuck {s : QState} (h : s.concurrency ≤ (s.running : Int)) :
    ∀ fuel, processNextF fuel s = s := by
  intro fuel
  cases fuel with
  | zero => rfl
  | succ fuel => rw [processNextF, if_pos (Or.inl h)]

theorem processNextF_drop (fuel : Nat) : ∀ s : QState, ∃ d,
    (processNextF fuel s).queue = s.queue.drop d ∧
    (processNextF fuel s).started = s.started ++ s.queue.take d ∧
    (fuel ≠ 0 → ¬(s.concurrency ≤ (s.running : Int) ∨ s.queue.isEmpty = true) →
      1 ≤ d) := by
  induction fuel with
  | zero =>
    intro s
    refine ⟨0, ?_, ?_, fun h _ => absurd rfl h⟩
    · rw [processNextF]; rfl
    · rw [processNextF]; simp
  | succ fuel ih =>
    intro s
    rw [processNextF]
    by_cases hg : s.concurrency ≤ (s.running : Int) ∨ s.queue.isEmpty
    · rw [if_pos hg]
      exact ⟨0, rfl, by simp, fun _ h => absurd hg h⟩
    · rw [if_neg hg]
      push_neg at hg
      cases hq : s.queue with
      | nil =>
        exfalso
        rw [hq] at hg
        simp at hg
      | cons i rest =>
        dsimp only
        cases hb : s.beh i with
        | async =>
          dsimp only
          exact ⟨1, rfl, rfl, fun _ _ => le_refl 1⟩
        | throws e =>
          dsimp only
          obtain ⟨d, hd1, hd2, _⟩ := ih (settleCore (dispatch s i rest) i (.err e))
          refine ⟨d + 1, ?_, ?_, fun _ _ => by omega⟩
          · rw [hd1]
            exact rfl
          · rw [hd2]
            show (s.started ++ [i]) ++ rest.take d = s.started ++ (i :: rest).take (d + 1)
            rw [List.append_assoc]
            rfl

theorem processNextF_handles_frame (fuel : Nat) : ∀ (s : QState) (j : Nat),
    j ∉ s.queue → (processNextF fuel s).handles j = s.handles j := by
  induction fuel with
  | zero => intro s j _; rfl
  | succ fuel ih =>
    intro s j hj
    rw [processNextF]
    by_cases hg : s.concurrency ≤ (s.running : Int) ∨ s.queue.isEmpty
    · rw [if_pos hg]
    · rw [if_neg hg]
      cases hq : s.queue with
      | nil => rfl
      | cons i rest =>
        dsimp only
        have hji : j ≠ i := by
          intro h; rw [h] at hj; rw [hq] at hj
          exact hj (List.mem_cons_self i rest)
        have hjr : j ∉ rest := by
          intro h; rw [hq] at hj
          exact hj (List.mem_cons_of_mem i h)
        cases hb : s.beh i with
        | async => rfl
        | throws e =>
          dsimp only
          rw [ih _ j hjr]
          show (if j = i then (Outcome.err e).toHandle else s.handles j) = s.handles j
          rw [if_neg hji]

theorem processNextF_handles_or (fuel : Nat) : ∀ (s : QState) (j : Nat),
    (processNextF fuel s).handles j = s.handles j ∨
      ∃ e, s.beh j = .throws e ∧
        (processNextF fuel s).handles j = .rejected e := by
  induction fuel with
  | zero => intro s j; exact Or.inl rfl
  | succ fuel ih =>
    intro s j
    rw [processNextF]
    by_cases hg : s.concurrency ≤ (s.running : Int) ∨ s.queue.isEmpty
    · rw [if_pos hg]; exact Or.inl rfl
    · rw [if_neg hg]
      cases hq : s.queue with
      | nil => exact Or.inl rfl
      | cons i rest =>
        dsimp only
        cases hb : s.beh i with
        | async => exact Or.inl rfl
        | throws e =>
          dsimp only
          rcases ih (settleCore (dispatch s i rest) i (.err e)) j with h | ⟨e', hb', hh'⟩
          · by_cases hji : j = i
            · subst hji
              refine Or.inr ⟨e, hb, ?_⟩
              rw [h]
              show (if j = j then (Outcome.err e).toHandle else s.handles j) = _
              rw [if_pos rfl]; rfl
            · refine Or.inl ?_
              rw [h]
              show (if j = i then (Outcome.err e).toHandle else s.handles j) = s.handles j
              rw [if_neg hji]
          · exact Or.inr ⟨e', hb', hh'⟩

theorem processNextF_active_frame (fuel : Nat) : ∀ (s : QState) (j : Nat),
    j ∉ s.active → j ∉ s.queue → j ∉ (processNextF fuel s).active := by
  induction fuel with
  | zero => intro s j ha _; exact ha
  | succ fuel ih =>
    intro s j ha hq'
    rw [processNextF]
    by_cases hg : s.concurrency ≤ (s.running : Int) ∨ s.queue.isEmpty
    · rw [if_pos hg]; exact ha
    · rw [if_neg hg]
      cases hq : s.queue with
      | nil => exact ha
      | cons i rest =>
        dsimp only
        have hji : j ≠ i := by
          intro h; rw [h] at hq'; rw [hq] at hq'
          exact hq' (List.mem_cons_self i rest)
        have hjr : j ∉ rest := by
          intro h; rw [hq] at hq'
          exact hq' (List.mem_cons_of_mem i h)
        have hja : j ∉ s.active ++ [i] := by
          intro h
          rcases List.mem_append.mp h with h' | h'
          · exact ha h'
          · rw [List.mem_singleton] at h'; exact hji h'
        cases hb : s.beh i with
        | async => exact hja
        | throws e =>
          dsimp only
          refine ih _ j ?_ hjr
          show j ∉ (s.active ++ [i]).erase i
          intro h
          exact hja (List.mem_of_mem_erase h)

theorem processNextF_congr (fuel : Nat) : ∀ s t : QState,
    AgreeExceptHandles s t →
    AgreeExceptHandles (processNextF fuel s) (processNextF fuel t) := by
  induction fuel with
  | zero => intro s t h; exact h
  | succ fuel ih =>
    intro s t h
    obtain ⟨hc, hr, hq, hn, hsub, hst, hact, hset, hbeh⟩ := h
    rw [processNextF, processNextF]
    by_cases hg : s.concurrency ≤ (s.running : Int) ∨ s.queue.isEmpty
    · rw [if_pos hg, if_pos (by rw [← hc, ← hr, ← hq]; exact hg)]
      exact ⟨hc, hr, hq, hn, hsub, hst, hact, hset, hbeh⟩
    · rw [if_neg hg, if_neg (by rw [← hc, ← hr, ← hq]; exact hg)]
      cases hq' : s.queue with
      | nil =>
        exfalso
        push_neg at hg
        rw [hq'] at hg
        simp at hg
      | cons i rest =>
        have hq'' : t.queue = i :: rest := by rw [← hq, hq']
        rw [hq'']
        dsimp only
        have hbeh' : t.beh i = s.beh i := by rw [hbeh]
        rw [hbeh']
        cases hb : s.beh i with
        | async =>
          dsimp only
          refine ⟨hc, ?_, rfl, hn, hsub, ?_, ?_, hset, hbeh⟩
          · show s.running + 1 = t.running + 1
            rw [hr]
          · show s.started ++ [i] = t.started ++ [i]
            rw [hst]
          · show s.active ++ [i] = t.active ++ [i]
            rw [hact]
        | throws e =>
          dsimp only
          refine ih _ _ ⟨hc, ?_, rfl, hn, hsub, ?_, ?_, ?_, hbeh⟩
          · show s.running + 1 - 1 = t.running + 1 - 1
            rw [hr]
          · show s.started ++ [i] = t.started ++ [i]
            rw [hst]
          · show (s.active ++ [i]).erase i = (t.active ++ [i]).erase i
            rw [hact]
          · show s.settled ++ [i] = t.settled ++ [i]
            rw [hset]

theorem step_started_mono {s s' : QState} {e : Event}
    (hs : step s e = some s') : ∃ l, s'.started = s.started ++ l := by
  cases e with
  | add b =>
    have hs' : processNext (enqueue s b) = s' := by
      simpa [step] using hs
    obtain ⟨d, _, hd2, _⟩ :=
      processNextF_drop (enqueue s b).queue.length (enqueue s b)
    exact ⟨(enqueue s b).queue.take d, by rw [← hs']; exact hd2⟩
  | settle i o =>
    simp only [step] at hs
    split at hs
    case isTrue hg =>
      have hs' : processNext (settleCore s i o) = s' := by simpa using hs
      obtain ⟨d, _, hd2, _⟩ :=
        processNextF_drop (settleCore s i o).queue.length (settleCore s i o)
      exact ⟨(settleCore s i o).queue.take d, by rw [← hs']; exact hd2⟩
    case isFalse hg => exact absurd hs (by simp)

theorem run_started_mono : ∀ (es : List Event) (s s' : QState),
    run s es = some s' → ∀ x ∈ s.started, x ∈ s'.started := by
  intro es
  induction es with
  | nil =>
    intro s s' hr x hx
    have : s = s' := by simpa [run] using hr
    rw [← this]; exact hx
  | cons e es ih =>
    intro s s' hr x hx
    rw [run] at hr
    cases hstep : step s e with
    | none => rw [hstep] at hr; exact absurd hr (by simp)
    | some s₁ =>
      rw [hstep] at hr
      obtain ⟨l, hl⟩ := step_started_mono hstep
      exact ih s₁ s' hr x (by rw [hl]; exact List.mem_append_left l hx)

theorem run_settles_dispatch : ∀ (es : List Event) (s s' : QState) (i : Nat)
    (p q : List Nat), QueueInv s → 1 ≤ s.concurrency →
    s.queue = p ++ i :: q → run s es = some s' →
    p.length < settleCount es → i ∈ s'.started := by
  intro es
  induction es with
  | nil =>
    intro s s' i p q _ _ _ _ hcount
    simp [settleCount] at hcount
  | cons e es ih =>
    intro s s' i p q hinv hK hq hrun hcount
    rw [run] at hrun
    cases hstep : step s e with
    | none => rw [hstep] at hrun; exact absurd hrun (by simp)
    | some s₁ =>
      rw [hstep] at hrun
      have hinv₁ : QueueInv s₁ := step_queueInv hinv hstep
      have hK₁ : 1 ≤ s₁.concurrency := by rw [step_concurrency hstep]; exact hK
      have hne : s.queue ≠ [] := by
        rw [hq]
        intro h
        exact List.cons_ne_nil i q (List.append_eq_nil.mp h).2
      have hbusy := hinv.busy hne
      cases e with
      | add b =>
        have hs₁ : enqueue s b = s₁ := by
          have h1 : some (processNext (enqueue s b)) = some s₁ := by
            rw [← hstep]; rfl
          have h2 : processNext (enqueue s b) = s₁ := Option.some.inj h1
          rw [← h2]
          exact (processNextF_stuck (s := enqueue s b) hbusy _).symm
        have hcnt : settleCount (Event.add b :: es) = settleCount es := rfl
        refine ih s₁ s' i p (q ++ [s.nextId]) hinv₁ hK₁ ?_ hrun ?_
        · rw [← hs₁]
          show s.queue ++ [s.nextId] = p ++ i :: (q ++ [s.nextId])
          rw [hq, List.append_assoc]
          rfl
        · rw [hcnt] at hcount
          exact hcount
      | settle j o =>
        simp only [step] at hstep
        split at hstep
        case isFalse hg => exact absurd hstep (by simp)
        case isTrue hg =>
          have hs₁ : processNext (settleCore s j o) = s₁ := Option.some.inj hstep
          have hmax : max s.concurrency 0 = s.concurrency :=
            max_eq_left (by omega)
          have hrle : (s.running : Int) ≤ s.concurrency := by
            have := hinv.run_le
            rw [hmax] at this
            exact this
          have hr1 : 1 ≤ s.running := by
            rw [hinv.run_active]
            exact List.length_pos.mpr (List.ne_nil_of_mem hg.1)
          have hguard : ¬((settleCore s j o).concurrency ≤
              (((settleCore s j o).running : Nat) : Int) ∨
              (settleCore s j o).queue.isEmpty = true) := by
            push_neg
            constructor
            · show ((s.running - 1 : Nat) : Int) < s.concurrency
              omega
            · show ¬ s.queue.isEmpty = true
              rw [hq]
              simp
          obtain ⟨d, hd1, hd2, hd3⟩ :=
            processNextF_drop (settleCore s j o).queue.length (settleCore s j o)
          have hfuel : (settleCore s j o).queue.length ≠ 0 := by
            show s.queue.length ≠ 0
            rw [hq]
            simp
          have hd : 1 ≤ d := hd3 hfuel hguard
          have hcnt : settleCount (Event.settle j o :: es) = settleCount es + 1 :=
            rfl
          rw [hcnt] at hcount
          by_cases hdp : d ≤ p.length
          · have hqueue₁ : s₁.queue = p.drop d ++ i :: q := by
              rw [← hs₁]
              show (processNextF (settleCore s j o).queue.length
                (settleCore s j o)).queue = p.drop d ++ i :: q
              rw [hd1]
              show s.queue.drop d = p.drop d ++ i :: q
              rw [hq, List.drop_append_eq_append_drop,
                Nat.sub_eq_zero_of_le hdp, List.drop_zero]
            refine ih s₁ s' i (p.drop d) q hinv₁ hK₁ hqueue₁ hrun ?_
            have hlen : (p.drop d).length = p.length - d := by
              rw [List.length_drop]
            omega
          · push_neg at hdp
            have hitake : i ∈ (settleCore s j o).queue.take d := by
              show i ∈ s.queue.take d
              rw [hq, List.take_append_eq_append_take]
              refine List.mem_append_right _ ?_
              obtain ⟨m, hm⟩ : ∃ m, d - p.length = m + 1 :=
                ⟨d - p.length - 1, by omega⟩
              rw [hm]
              exact List.mem_cons_self i _
            have histarted : i ∈ s₁.started := by
              rw [← hs₁]
              show i ∈ (processNextF (settleCore s j o).queue.length
                (settleCore s j o)).started
              rw [hd2]
              exact List.mem_append_right _ hitake
            exact run_started_mono es s₁ s' hrun i histarted

theorem processNextF_seqInv (fuel : Nat) : ∀ s : QState,
    s.concurrency ≤ 1 → PreInv s → SeqInv s → SeqInv (processNextF fuel s) := by
  induction fuel with
  | zero => intro s _ _ h; exact h
  | succ fuel ih =>
    intro s hc hp hseq
    rw [processNextF]
    by_cases hg : s.concurrency ≤ (s.running : Int) ∨ s.queue.isEmpty
    · rw [if_pos hg]; exact hseq
    · rw [if_neg hg]
      push_neg at hg
      obtain ⟨hrun, hne⟩ := hg
      have hrun0 : s.running = 0 := by omega
      have hact : s.active = [] := by
        have h1 := hp.run_active
        rw [hrun0] at h1
        exact List.length_eq_zero.mp h1.symm
      have hsub : ∀ j ∈ s.started, j ∈ s.settled := by
        intro j hj
        rcases hp.part j hj with h1 | h1
        · rw [hact] at h1; exact absurd h1 (List.not_mem_nil j)
        · exact h1
      cases hq : s.queue with
      | nil => exact hseq
      | cons i rest =>
        dsimp only
        cases hb : s.beh i with
        | async =>
          dsimp only
          intro j hj
          have hj' : j ∈ s.started := by
            have h1 : (s.started ++ [i]).dropLast = s.started := by
              exact List.dropLast_concat
            rw [show (dispatch s i rest).started = s.started ++ [i] from rfl,
              h1] at hj
            exact hj
          exact hsub j hj'
        | throws e =>
          dsimp only
          refine ih _ hc
            (settleCore_preInv (dispatch_preInv hp hq hrun) ?_) ?_
          · show i ∈ s.active ++ [i]
            exact List.mem_append_right _ (List.mem_singleton_self i)
          · intro j hj
            have hj' : j ∈ s.started := by
              have h1 : (s.started ++ [i]).dropLast = s.started := by
                exact List.dropLast_concat
              rw [show (settleCore (dispatch s i rest) i
                (Outcome.err e)).started = s.started ++ [i] from rfl, h1] at hj
              exact hj
            show j ∈ s.settled ++ [i]
            exact List.mem_append_left _ (hsub j hj')

theorem run_seqInv : ∀ (es : List Event) (s s' : QState),
    QueueInv s → s.concurrency ≤ 1 → SeqInv s →
    run s es = some s' → SeqInv s' := by
  intro es
  induction es with
  | nil =>
    intro s s' _ _ hseq hr
    have : s = s' := by simpa [run] using hr
    rw [← this]; exact hseq
  | cons e es ih =>
    intro s s' hinv hc hseq hr
    rw [run] at hr
    cases hstep : step s e with
    | none => rw [hstep] at hr; exact absurd hr (by simp)
    | some s₁ =>
      rw [hstep] at hr
      have hc₁ : s₁.concurrency ≤ 1 := by rw [step_concurrency hstep]; exact hc
      have hseq₁ : SeqInv s₁ := by
        cases e with
        | add b =>
          have hs₁ : processNext (enqueue s b) = s₁ := by simpa [step] using hstep
          rw [← hs₁]
          exact processNextF_seqInv _ _ hc (enqueue_preInv hinv) hseq
        | settle i o =>
          simp only [step] at hstep
          split at hstep
          case isTrue hg =>
            have hs₁ : processNext (settleCore s i o) = s₁ :=
              Option.some.inj hstep
            rw [← hs₁]
            refine processNextF_seqInv _ _ hc
              (settleCore_preInv hinv.toPreInv hg.1) ?_
            intro j hj
            show j ∈ s.settled ++ [i]
            exact List.mem_append_left _ (hseq j hj)
          case isFalse hg => exact absurd hstep (by simp)
      exact ih s₁ s' (step_queueInv hinv hstep) hc₁ hseq₁ hr

theorem reachable_seqInv {K : Int} {s : QState} (hK : K ≤ 1)
    (h : Reachable K s) : SeqInv s := by
  obtain ⟨es, hes⟩ := h
  refine run_seqInv es _ _ (new_queueInv K) hK ?_ hes
  intro j hj
  exact absurd hj (List.not_mem_nil j)

theorem queueInv_started_range {s : QState} (h : QueueInv s) :
    s.started = List.range s.started.length := by
  have horder : s.started ++ s.queue = List.range s.nextId := by
    rw [h.order, h.subm]
  have hpre : s.started <+: List.range s.nextId := ⟨s.queue, horder⟩
  have hlen : s.started.length ≤ s.nextId := by
    simpa using hpre.length_le
  have htake := List.prefix_iff_eq_take.mp hpre
  conv_lhs => rw [htake]
  rw [List.take_range]
  congr 1
  omega

theorem processNextF_nilqueue {s : QState} (hq : s.queue = []) :
    ∀ fuel, processNextF fuel s = s := by
  intro fuel
  cases fuel with
  | zero => rfl
  | succ fuel =>
    rw [processNextF, if_pos (Or.inr (by rw [hq]; rfl))]

theorem processNext_nilqueue {s : QState} (hq : s.queue = []) :
    processNext s = s :=
  processNextF_nilqueue hq _

theorem processNext_singleton_async {s : QState} {i : Nat}
    (hq : s.queue = [i]) (hrun : (s.running : Int) < s.concurrency)
    (hb : s.beh i = .async) : processNext s = dispatch s i [] := by
  have hguard : ¬(s.concurrency ≤ (s.running : Int) ∨
      s.queue.isEmpty = true) := by
    push_neg
    exact ⟨hrun, by rw [hq]; simp⟩
  have hlen : s.queue.length = 1 := by rw [hq]; rfl
  show processNextF s.queue.length s = dispatch s i []
  rw [hlen, show (1 : Nat) = 0 + 1 from rfl, processNextF, if_neg hguard, hq]
  dsimp only
  rw [hb]

theorem processNext_singleton_throws {s : QState} {i : Nat} {e : Val}
    (hq : s.queue = [i]) (hrun : (s.running : Int) < s.concurrency)
    (hb : s.beh i = .throws e) :
    processNext s = settleCore (dispatch s i []) i (.err e) := by
  have hguard : ¬(s.concurrency ≤ (s.running : Int) ∨
      s.queue.isEmpty = true) := by
    push_neg
    exact ⟨hrun, by rw [hq]; simp⟩
  have hlen : s.queue.length = 1 := by rw [hq]; rfl
  show processNextF s.queue.length s = settleCore (dispatch s i []) i (.err e)
  rw [hlen, show (1 : Nat) = 0 + 1 from rfl, processNextF, if_neg hguard, hq]
  dsimp only
  rw [hb]
  rfl

theorem nonpos_no_dispatch : ∀ (es : List Event) (s s' : QState),
    s.concurrency ≤ 0 → s.started = [] → s.active = [] →
    run s es = some s' → s'.started = [] ∧ s'.active = [] := by
  intro es
  induction es with
  | nil =>
    intro s s' _ hst hact hr
    have : s = s' := by simpa [run] using hr
    rw [← this]; exact ⟨hst, hact⟩
  | cons e es ih =>
    intro s s' hc hst hact hr
    rw [run] at hr
    cases hstep : step s e with
    | none => rw [hstep] at hr; exact absurd hr (by simp)
    | some s₁ =>
      rw [hstep] at hr
      cases e with
      | add b =>
        have hguard : (enqueue s b).concurrency ≤
            (((enqueue s b).running : Nat) : Int) := by
          show s.concurrency ≤ (s.running : Int)
          have : (0 : Int) ≤ (s.running : Int) := Int.natCast_nonneg s.running
          omega
        have hs₁ : enqueue s b = s₁ := by
          have h1 : processNext (enqueue s b) = s₁ := by simpa [step] using hstep
          rw [← h1]
          exact (processNextF_stuck (s := enqueue s b) hguard _).symm
        refine ih s₁ s' ?_ ?_ ?_ hr
        · rw [← hs₁]; exact hc
        · rw [← hs₁]; exact hst
        · rw [← hs₁]; exact hact
      | settle i o =>
        exfalso
        simp only [step] at hstep
        split at hstep
        case isTrue hg =>
          rw [hact] at hg
          exact absurd hg.1 (List.not_mem_nil i)
        case isFalse hg => exact absurd hstep (by simp)

/-- Claim C1: for every sequence of submissions to a `RequestQueue`
constructed with positive `max_concurrency` K, at every instant (i.e. in
every reachable state of the event model, mutation happening only inside
the guarded synchronous sections) the number of currently executing —
dispatched but not yet settled — work items is at most K, and so is the
`running` counter. -/
theorem claim1_active_le_ceiling {K : Int} {s : QState}
    (hr : Reachable K s) (hK : 1 ≤ K) :
    (s.active.length : Int) ≤ K ∧ (s.running : Int) ≤ K := by
  have hinv := reachable_queueInv hr
  have hc := reachable_concurrency hr
  have h1 := hinv.run_le
  rw [hc] at h1
  have hmax : max K 0 = K := max_eq_left (by omega)
  rw [hmax] at h1
  refine ⟨?_, h1⟩
  rw [← hinv.run_active]
  exact h1

/-- Witness for C1 at ceiling 2 after three submissions. -/
theorem claim1_witness :
    (1 : Int) ≤ 2 ∧
      ((exState1.active.length : Int) ≤ 2 ∧ (exState1.running : Int) ≤ 2) :=
  ⟨by decide, claim1_active_le_ceiling ⟨exTrace1, rfl⟩ (by decide)⟩

/-- Claim C2: dispatch start order equals submission order among items
that were still queued at submission time: in every reachable state the
dispatched items, in start order, followed by the queued items, in queue
order, are exactly the submitted items in submission order — hence the
dispatch start sequence is a prefix of the submission sequence and the
item removed and started when a slot frees is always the queue head. -/
theorem claim2_fifo_order {K : Int} {s : QState} (hr : Reachable K s) :
    s.started ++ s.queue = s.submitted ∧ s.started <+: s.submitted := by
  have hinv := reachable_queueInv hr
  exact ⟨hinv.order, ⟨s.queue, hinv.order⟩⟩

/-- Witness for C2 at ceiling 1 after two submissions. -/
theorem claim2_witness :
    exState2.started ++ exState2.queue = exState2.submitted ∧
      exState2.started <+: exState2.submitted :=
  claim2_fifo_order ⟨exTrace2, rfl⟩

/-- Claim C9 (implicit): at every quiescent point (a reachable state of
the event model, i.e. whenever no `add` or `processNext` synchronous
section is in progress), if the queue is non-empty then the running count
equals `max_concurrency` — a slot is never left idle while work waits. -/
theorem claim9_no_idle_slot {K : Int} {s : QState} (hr : Reachable K s)
    (hK : 1 ≤ K) (hne : s.queue ≠ []) : (s.running : Int) = K := by
  have hinv := reachable_queueInv hr
  have hc := reachable_concurrency hr
  have h1 := hinv.busy hne
  have h2 := hinv.run_le
  rw [hc] at h1 h2
  have hmax : max K 0 = K := max_eq_left (by omega)
  rw [hmax] at h2
  omega

/-- Witness for C9: ceiling 2, three submissions, one item queued. -/
theorem claim9_witness :
    (1 : Int) ≤ 2 ∧ exState1.queue ≠ [] ∧ (exState1.running : Int) = 2 :=
  ⟨by decide, by decide, claim9_no_idle_slot ⟨exTrace1, rfl⟩ (by decide)
    (by decide)⟩

/-- Claim C5, counterexample: the constructor performs no validation.
Constructing with `max_concurrency = 0` succeeds, stores 0 (neither
rejected nor clamped to 1), and a submitted work item is never dispatched:
after `add` the dispatch-start list is still empty and the item sits in
the queue forever, so this constructed dispatcher has no positive limit
under which submitted work can run. -/
theorem claim5_counterexample :
    (RequestQueue.new 0).concurrency = 0 ∧
      (step (RequestQueue.new 0) (.add .async)).map QState.started =
        some [] ∧
      (step (RequestQueue.new 0) (.add .async)).map QState.queue =
        some [0] ∧
      (run (RequestQueue.new 0) exTrace5).map QState.started = some [] :=
  ⟨rfl, by decide, by decide, by decide⟩

/-- Claim C5, amended: the constructor stores `max_concurrency` exactly as
given, with no rejection and no clamping (the declared default is 3); for
a ceiling less than or equal to 0 the guard `running >= concurrency` is
always satisfied, so no submitted item is ever dispatched in any reachable
state. -/
theorem claim5_amended_unvalidated (K : Int) :
    (RequestQueue.new K).concurrency = K ∧
      (RequestQueue.new).concurrency = 3 ∧
      (K ≤ 0 → ∀ s, Reachable K s → s.started = [] ∧ s.active = []) := by
  refine ⟨rfl, rfl, fun hK s hs => ?_⟩
  obtain ⟨es, hes⟩ := hs
  exact nonpos_no_dispatch es _ _ hK rfl rfl hes

/-- Witness for the amended C5 at ceiling 0 after two submissions. -/
theorem claim5_amended_witness :
    (RequestQueue.new 0).concurrency = 0 ∧
      (exState5.started = [] ∧ exState5.active = []) :=
  ⟨(claim5_amended_unvalidated 0).1,
    (claim5_amended_unvalidated 0).2.2 (by decide) exState5 ⟨exTrace5, rfl⟩⟩

/-- Claim C6: submitting while the running count is strictly below the
ceiling and the queue is otherwise empty dispatches the submitted item
immediately — its execution begins during the `add` call (it is appended
to the dispatch-start list by the synchronous `processNext()` that `add`
invokes) and the queue stays empty. -/
theorem claim6_immediate_dispatch (s s' : QState) (b : FnBehavior)
    (hq : s.queue = []) (hrun : (s.running : Int) < s.concurrency)
    (hs : step s (.add b) = some s') :
    s'.started = s.started ++ [s.nextId] ∧ s'.queue = [] := by
  have hstep : processNext (enqueue s b) = s' := by simpa [step] using hs
  have hq1 : (enqueue s b).queue = [s.nextId] := by
    show s.queue ++ [s.nextId] = [s.nextId]
    rw [hq]; rfl
  have hguard : ¬((enqueue s b).concurrency ≤ ((enqueue s b).running : Int) ∨
      (enqueue s b).queue.isEmpty = true) := by
    push_neg
    refine ⟨hrun, ?_⟩
    rw [hq1]
    simp
  obtain ⟨d, hd1, hd2, hd3⟩ :=
    processNextF_drop (enqueue s b).queue.length (enqueue s b)
  have hfz : (enqueue s b).queue.length ≠ 0 := by rw [hq1]; simp
  have hd : 1 ≤ d := hd3 hfz hguard
  constructor
  · rw [← hstep]
    show (processNextF (enqueue s b).queue.length (enqueue s b)).started =
      s.started ++ [s.nextId]
    rw [hd2, hq1]
    show s.started ++ [s.nextId].take d = s.started ++ [s.nextId]
    rw [List.take_of_length_le (by simpa using hd)]
  · rw [← hstep]
    show (processNextF (enqueue s b).queue.length (enqueue s b)).queue = []
    rw [hd1, hq1]
    exact List.drop_eq_nil_of_le (by simpa using hd)

/-- Witness for C6: a single submission to the idle default queue. -/
theorem claim6_witness :
    (RequestQueue.new 3).queue = [] ∧
      (((RequestQueue.new 3).running : Nat) : Int) < 3 ∧
      (exState6.started =
          (RequestQueue.new 3).started ++ [(RequestQueue.new 3).nextId] ∧
        exState6.queue = []) :=
  ⟨rfl, by decide,
    claim6_immediate_dispatch (RequestQueue.new 3) exState6 .async rfl
      (by decide) rfl⟩

/-- Claim C7: a queued work item is eventually dispatched.  If dispatched
items keep settling — any continuation of the run containing at least as
many settlement events as there are currently queued items (each
settlement frees a slot and triggers a dispatch that strictly advances the
queue) — then every item currently in the queue of a dispatcher with a
positive ceiling appears in the dispatch-start list afterwards; no queued
item is abandoned. -/
theorem claim7_eventually_dispatched (K : Int) (s s' : QState) (i : Nat)
    (es : List Event) (hr : Reachable K s) (hK : 1 ≤ K) (hi : i ∈ s.queue)
    (hrun : run s es = some s') (hcnt : s.queue.length ≤ settleCount es) :
    i ∈ s'.started := by
  obtain ⟨p, q, hpq⟩ := List.mem_iff_append.mp hi
  have hinv := reachable_queueInv hr
  have hc := reachable_concurrency hr
  refine run_settles_dispatch es s s' i p q hinv (by rw [hc]; exact hK) hpq
    hrun ?_
  rw [hpq] at hcnt
  simp [List.length_append] at hcnt
  omega

/-- Witness for C7: ceiling 1, item 1 queued; one settlement dispatches it. -/
theorem claim7_witness :
    (1 : Int) ≤ 1 ∧ 1 ∈ exState2.queue ∧
      exState2.queue.length ≤ settleCount exTrace7 ∧ 1 ∈ exState7.started :=
  ⟨by decide, by decide, by decide,
    claim7_eventually_dispatched 1 exState2 exState7 1 exTrace7
      ⟨exTrace2, rfl⟩ (by decide) (by decide) rfl (by decide)⟩

/-- Claim C8: with `max_concurrency = 1` the dispatcher is strictly
sequential.  Ids are assigned in submission order, so in every reachable
state of a ceiling-1 dispatcher, if an item `j` has started then every
earlier-submitted item `i < j` has already fully settled: each item starts
only after the previously submitted one resolved or rejected. -/
theorem claim8_sequential (s : QState) (i j : Nat) (hr : Reachable 1 s)
    (hj : j ∈ s.started) (hij : i < j) : i ∈ s.settled := by
  have hinv := reachable_queueInv hr
  have hseq := reachable_seqInv le_rfl hr
  have hrange := queueInv_started_range hinv
  have hm : j < s.started.length := by
    rw [hrange] at hj
    exact List.mem_range.mp hj
  have him : i ∈ s.started.dropLast := by
    have h2 : List.range s.started.length =
        List.range (s.started.length - 1) ++ [s.started.length - 1] := by
      conv_lhs => rw [show s.started.length = s.started.length - 1 + 1 by omega]
      rw [List.range_succ]
    rw [hrange, h2, List.dropLast_concat]
    exact List.mem_range.mpr (by omega)
  exact hseq i him

/-- Witness for C8: ceiling 1; item 1 started, so item 0 has settled. -/
theorem claim8_witness : 1 ∈ exState8.started ∧ 0 < 1 ∧ 0 ∈ exState8.settled :=
  ⟨by decide, by decide,
    claim8_sequential exState8 0 1 ⟨exTrace8, rfl⟩ (by decide) (by decide)⟩

/-- Claim C3: when a dispatched item settles, the dispatcher settles
exactly that item's promise with exactly what the item produced —
`resolve(result)` on success, `reject(err)` on failure, no swallowing or
transformation (`Outcome.toHandle` maps `ok v` to `resolved v` and `err e`
to `rejected e`).  Every other item's handle is untouched, except that a
queued item may be dispatched by the freed slot and, if its function
throws synchronously, settle — with its own error, never with `o`. -/
theorem claim3_settle_exact (K : Int) (s s' : QState) (i : Nat) (o : Outcome)
    (hr : Reachable K s) (hs : step s (.settle i o) = some s') :
    s'.handles i = o.toHandle ∧
      ∀ j, j ≠ i → s'.handles j = s.handles j ∨
        ∃ e, s.beh j = .throws e ∧ s'.handles j = .rejected e := by
  have hinv := reachable_queueInv hr
  simp only [step] at hs
  split at hs
  case isFalse hg => exact absurd hs (by simp)
  case isTrue hg =>
    have hstep : processNext (settleCore s i o) = s' := Option.some.inj hs
    have hiq : i ∉ s.queue := fun hmem =>
      hinv.toPreInv.queue_disj i hmem (hinv.act_st i hg.1)
    constructor
    · have hh : s'.handles i = (settleCore s i o).handles i := by
        rw [← hstep]
        exact processNextF_handles_frame _ _ i hiq
      rw [hh]
      show (if i = i then o.toHandle else s.handles i) = o.toHandle
      rw [if_pos rfl]
    · intro j hj
      rcases processNextF_handles_or (settleCore s i o).queue.length
          (settleCore s i o) j with h | ⟨e, hbe, hh⟩
      · left
        have hh : s'.handles j = (settleCore s i o).handles j := by
          rw [← hstep]
          exact h
        rw [hh]
        show (if j = i then o.toHandle else s.handles j) = s.handles j
        rw [if_neg hj]
      · right
        exact ⟨e, hbe, by rw [← hstep]; exact hh⟩

/-- Witness for C3: ceiling 1, the active item resolves with value 7. -/
theorem claim3_witness :
    exState3s.handles 0 = (Outcome.ok 7).toHandle ∧
      ∀ j, j ≠ 0 → exState3s.handles j = exState2.handles j ∨
        ∃ e, exState2.beh j = .throws e ∧ exState3s.handles j = .rejected e :=
  claim3_settle_exact 1 exState2 exState3s 0 (.ok 7) ⟨exTrace2, rfl⟩ rfl

/-- Claim C4: a failing dispatched item triggers exactly the same
bookkeeping as a succeeding one.  Settling item `i` with an error leads to
a state that agrees with the state after settling `i` with a success on
every component except the promise handles (same running count, queue,
dispatch starts, active and settled sets — failure runs the identical
decrement-and-dispatch-next path); the failing item's own handle is
rejected with its own error, the item leaves the active set, and after the
dispatch attempt no slot is idle while work waits. -/
theorem claim4_failure_bookkeeping (K : Int) (s s₁ s₂ : QState) (i : Nat)
    (e v : Val) (hr : Reachable K s)
    (h1 : step s (.settle i (.err e)) = some s₁)
    (h2 : step s (.settle i (.ok v)) = some s₂) :
    AgreeExceptHandles s₁ s₂ ∧ s₁.handles i = .rejected e ∧
      s₂.handles i = .resolved v ∧ i ∉ s₁.active ∧
      (s₁.queue ≠ [] → s₁.concurrency ≤ (s₁.running : Int)) := by
  have hinv := reachable_queueInv hr
  have hq1 := step_queueInv hinv h1
  simp only [step] at h1 h2
  split at h1
  case isFalse hg => exact absurd h1 (by simp)
  case isTrue hg =>
    rw [if_pos hg] at h2
    have hstep1 : processNext (settleCore s i (.err e)) = s₁ :=
      Option.some.inj h1
    have hstep2 : processNext (settleCore s i (.ok v)) = s₂ :=
      Option.some.inj h2
    have hiq : i ∉ s.queue := fun hmem =>
      hinv.toPreInv.queue_disj i hmem (hinv.act_st i hg.1)
    have hagree : AgreeExceptHandles (settleCore s i (.err e))
        (settleCore s i (.ok v)) :=
      ⟨rfl, rfl, rfl, rfl, rfl, rfl, rfl, rfl, rfl⟩
    have hh1 : s₁.handles i = HandleState.rejected e := by
      have hh : s₁.handles i = (settleCore s i (.err e)).handles i := by
        rw [← hstep1]
        exact processNextF_handles_frame _ _ i hiq
      rw [hh]
      show (if i = i then (Outcome.err e).toHandle else s.handles i) =
        HandleState.rejected e
      rw [if_pos rfl]
      rfl
    have hh2 : s₂.handles i = HandleState.resolved v := by
      have hh : s₂.handles i = (settleCore s i (.ok v)).handles i := by
        rw [← hstep2]
        exact processNextF_handles_frame _ _ i hiq
      rw [hh]
      show (if i = i then (Outcome.ok v).toHandle else s.handles i) =
        HandleState.resolved v
      rw [if_pos rfl]
      rfl
    have hia : i ∉ s₁.active := by
      rw [← hstep1]
      refine processNextF_active_frame _ _ i ?_ hiq
      show i ∉ s.active.erase i
      exact hinv.act_nd.not_mem_erase
    refine ⟨?_, hh1, hh2, hia, hq1.busy⟩
    rw [← hstep1, ← hstep2]
    exact processNextF_congr _ _ _ hagree

/-- Witness for C4: ceiling 2, item 0 settles with error 3 versus value 4. -/
theorem claim4_witness :
    AgreeExceptHandles exState4a exState4b ∧
      exState4a.handles 0 = .rejected 3 ∧ exState4b.handles 0 = .resolved 4 ∧
      0 ∉ exState4a.active ∧
      (exState4a.queue ≠ [] → exState4a.concurrency ≤
        (exState4a.running : Int)) :=
  claim4_failure_bookkeeping 2 exState1 exState4a exState4b 0 3 4
    ⟨exTrace1, rfl⟩ rfl rfl

/-- Claim C10 (implicit): a work function that throws synchronously when
invoked is handled exactly like an asynchronous rejection.  The exception
is caught by the same `catch` (so the promise returned by `add` rejects
with the thrown error), the `finally` block restores the running count,
and the next dispatch attempt still happens — the resulting state agrees
with the state produced by submitting an asynchronous item and having it
reject with the same error, on every component (including the handles);
only the ghost record of the function's behaviour differs. -/
theorem claim10_sync_throw (s s₁ s₂ s₃ : QState) (e : Val)
    (hq : s.queue = [])
    (hrun : (s.running : Int) < s.concurrency)
    (h1 : step s (.add (.throws e)) = some s₁)
    (h2 : step s (.add .async) = some s₂)
    (h3 : step s₂ (.settle s.nextId (.err e)) = some s₃) :
    s₁.handles s.nextId = .rejected e ∧ s₁.running = s.running ∧
      s.nextId ∈ s₁.settled ∧ s₁.running = s₃.running ∧ s₁.queue = s₃.queue ∧
      s₁.started = s₃.started ∧ s₁.active = s₃.active ∧
      s₁.settled = s₃.settled ∧ s₁.handles = s₃.handles := by
  have hstep1 : processNext (enqueue s (.throws e)) = s₁ := by
    simpa [step] using h1
  have hstep2 : processNext (enqueue s .async) = s₂ := by
    simpa [step] using h2
  have hq1 : (enqueue s (.throws e)).queue = [s.nextId] := by
    show s.queue ++ [s.nextId] = [s.nextId]
    rw [hq]; rfl
  have hq2 : (enqueue s .async).queue = [s.nextId] := by
    show s.queue ++ [s.nextId] = [s.nextId]
    rw [hq]; rfl
  have hb1 : (enqueue s (.throws e)).beh s.nextId = .throws e := by
    show (if s.nextId = s.nextId then FnBehavior.throws e
      else s.beh s.nextId) = FnBehavior.throws e
    rw [if_pos rfl]
  have hb2 : (enqueue s .async).beh s.nextId = .async := by
    show (if s.nextId = s.nextId then FnBehavior.async
      else s.beh s.nextId) = FnBehavior.async
    rw [if_pos rfl]
  have hs₁ : s₁ = settleCore (dispatch (enqueue s (.throws e)) s.nextId [])
      s.nextId (.err e) := by
    rw [← hstep1]
    exact processNext_singleton_throws hq1 hrun hb1
  have hs₂ : s₂ = dispatch (enqueue s .async) s.nextId [] := by
    rw [← hstep2]
    exact processNext_singleton_async hq2 hrun hb2
  subst hs₂
  have hmem : s.nextId ∈ (dispatch (enqueue s .async) s.nextId []).active :=
    List.mem_append_right _ (List.mem_singleton_self _)
  have hbeh₂ : (dispatch (enqueue s .async) s.nextId []).beh s.nextId =
      .async := hb2
  have hstep3 : processNext (settleCore
      (dispatch (enqueue s .async) s.nextId []) s.nextId (.err e)) = s₃ := by
    simp only [step] at h3
    rw [if_pos ⟨hmem, hbeh₂⟩] at h3
    exact Option.some.inj h3
  have hq₃ : (settleCore (dispatch (enqueue s .async) s.nextId [])
      s.nextId (.err e)).queue = [] := rfl
  have hs₃ : s₃ = settleCore (dispatch (enqueue s .async) s.nextId [])
      s.nextId (.err e) := by
    rw [← hstep3]
    exact (processNext_nilqueue hq₃).symm
  subst hs₁
  subst hs₃
  refine ⟨?_, ?_, ?_, ?_, rfl, rfl, rfl, rfl, ?_⟩
  · simp [settleCore, Outcome.toHandle]
  · exact rfl
  · exact List.mem_append_right _ (List.mem_singleton_self _)
  · exact rfl
  · exact rfl

/-- Witness for C10: submitting a function that throws error 9 to an idle
ceiling-2 queue, compared with an asynchronous rejection with error 9. -/
theorem claim10_witness :
    exStateA.handles 0 = .rejected 9 ∧
      exStateA.running = (RequestQueue.new 2).running ∧
      0 ∈ exStateA.settled ∧ exStateA.running = exStateC.running ∧
      exStateA.queue = exStateC.queue ∧ exStateA.started = exStateC.started ∧
      exStateA.active = exStateC.active ∧
      exStateA.settled = exStateC.settled ∧
      exStateA.handles = exStateC.handles :=
  claim10_sync_throw (RequestQueue.new 2) exStateA exStateB exStateC 9
    rfl (by decide) rfl rfl rfl
